import Mathlib

/-!
Shallow embedding of `cmd/tools/piecestore-benchmark/toflame.py`: a converter
from distributed-trace span data to folded-stack counts for flame graphs.

Modelling choices:
* Python dicts are insertion-ordered association lists (`dictInsert` updates a
  present key in place, otherwise appends; `dictGet` is key lookup).
* Span ids are `Nat`, timestamps are `Int` nanoseconds.
* Numbers are represented by `Frac`, an unreduced numerator/denominator
  pair (no gcd normalization, so the kernel can evaluate it); `Frac.toRat`
  interprets it in `ℚ`.  Python float expressions (`trace_duration_sec`,
  `sample_time`, `int(...)`) are modelled faithfully to IEEE binary64:
  `roundDouble` rounds an exact rational to the nearest double (ties to
  even, subnormals below 2^-1022, overflow not modelled — the program's
  quantities are far below the binary64 range), and each Python float
  operation, including the int-to-float conversions Python performs in
  mixed arithmetic, is the rounding of the exact operation (CPython's
  int/int true division and int-to-float conversion are correctly rounded).
  Comparisons of a float with an int (the active test) are exact in Python
  and are modelled by exact cross-multiplication.  `int()` truncation
  toward zero is `pyInt`.
* The recursive `walk` carries explicit fuel; fuel-independence beyond a
  computable bound is proved (termination of the Python recursion).
* Dictionary accesses that can raise (`span["id"]`, missing fields, the
  `finish - start` on `None` for an empty trace) are modelled in a second,
  raw-span layer returning `Except String`.
-/

namespace ToFlame

structure Func where
  package : String
  name : String
deriving DecidableEq

structure Span where
  id : Nat
  parent_id : Option Nat
  start : Int
  finish : Int
  func : Func
deriving DecidableEq

/-- Python dict as insertion-ordered association list (values of type `α`). -/
abbrev Dict (α : Type) := List (Nat × α)

/-- Python `d[k] = v`: update in place when the key is present, else append. -/
def dictInsert {α : Type} (d : Dict α) (k : Nat) (v : α) : Dict α :=
  if d.any (fun p => p.1 == k) then
    d.map (fun p => if p.1 == k then (k, v) else p)
  else d ++ [(k, v)]

/-- Python `d.get(k)`. -/
def dictGet {α : Type} (d : Dict α) (k : Nat) : Option α :=
  (d.find? (fun p => p.1 == k)).map (fun p => p.2)

def dictKeys {α : Type} (d : Dict α) : List Nat := d.map (fun p => p.1)

/-- Exact fraction with unreduced numerator and denominator; the value it
denotes is `num / den`.  All operations below keep `den` positive (for the
inputs the program produces) and perform no gcd reduction, so the kernel can
evaluate them; `toRat` maps into `ℚ`. -/
structure Frac where
  num : Int
  den : Int
deriving DecidableEq

def Frac.ofInt (n : Int) : Frac := ⟨n, 1⟩

/-- Python true division `a / b` of two integers (sign moved to the
numerator so the denominator stays nonnegative). -/
def Frac.divInt (a b : Int) : Frac := if b < 0 then ⟨-a, -b⟩ else ⟨a, b⟩

def Frac.mul (a b : Frac) : Frac := ⟨a.num * b.num, a.den * b.den⟩

def Frac.add (a b : Frac) : Frac := ⟨a.num * b.den + b.num * a.den, a.den * b.den⟩

/-- Strict order by cross-multiplication (correct whenever both
denominators are positive). -/
def Frac.blt (a b : Frac) : Bool := decide (a.num * b.den < b.num * a.den)

def Frac.toRat (a : Frac) : ℚ := (a.num : ℚ) / (a.den : ℚ)

/-- Exact division of two fractions (sign moved to the numerator so the
denominator stays positive when both inputs have positive denominator). -/
def Frac.div (a b : Frac) : Frac :=
  if b.num < 0 then ⟨-(a.num * b.den), a.den * (-b.num)⟩
  else ⟨a.num * b.den, a.den * b.num⟩

/-- Fuelled binary logarithm (structural recursion so the kernel can
evaluate it); `log2Fuel n n` is the floor of log2 of `n` for `n ≥ 1`. -/
def log2Fuel : Nat → Nat → Nat
  | 0, _ => 0
  | fuel + 1, n => if 2 ≤ n then log2Fuel fuel (n / 2) + 1 else 0

def natLog2 (n : Nat) : Nat := log2Fuel n n

/-- Floor of log2 of the positive rational `num / den`. -/
def floorLog2 (num den : Nat) : Int :=
  let e0 : Int := (natLog2 num : Int) - (natLog2 den : Int)
  let ok : Bool :=
    if 0 ≤ e0 then decide (den * 2 ^ e0.toNat ≤ num)
    else decide (den ≤ num * 2 ^ (-e0).toNat)
  if ok then e0 else e0 - 1

/-- Round the positive rational `N / D` to the nearest integer, ties to
even (`D > 0`). -/
def rne (N D : Nat) : Nat :=
  let q := N / D
  let r := N % D
  if 2 * r < D then q
  else if D < 2 * r then q + 1
  else if q % 2 = 0 then q else q + 1

/-- Binary64 rounding scale for the positive rational `num / den`: the
value is rounded at granularity `2^(-scale)` — `52 - e` for a normal
exponent `e ≥ -1022`, and the subnormal granularity `2^-1074` below. -/
def roundScale (num den : Nat) : Int :=
  if floorLog2 num den < -1022 then 1074 else 52 - floorLog2 num den

/-- Round the positive rational `num / den` to the nearest IEEE binary64
value (round to nearest, ties to even), returned as an exact `Frac`;
overflow is not modelled. -/
def roundPos (num den : Nat) : Frac :=
  if 0 ≤ roundScale num den then
    ⟨((rne (num * 2 ^ (roundScale num den).toNat) den : Nat) : Int),
      ((2 ^ (roundScale num den).toNat : Nat) : Int)⟩
  else
    ⟨((rne num (den * 2 ^ (-roundScale num den).toNat) : Nat) : Int)
        * ((2 ^ (-roundScale num den).toNat : Nat) : Int), 1⟩

/-- IEEE binary64 rounding of an exact fraction (denominator assumed
positive, as everywhere in this development). -/
def roundDouble (a : Frac) : Frac :=
  if a.num = 0 then ⟨0, 1⟩
  else if 0 < a.num then roundPos a.num.natAbs a.den.natAbs
  else
    let p := roundPos a.num.natAbs a.den.natAbs
    ⟨-p.num, p.den⟩

/-- Python int-to-float conversion (exact below 2^53, rounded above). -/
def floatOfInt (n : Int) : Frac := roundDouble ⟨n, 1⟩

/-- Python float/float division: correctly rounded exact quotient. -/
def floatDiv (a b : Frac) : Frac := roundDouble (a.div b)

/-- Python float multiplication: correctly rounded exact product. -/
def floatMul (a b : Frac) : Frac := roundDouble (a.mul b)

/-- Python float addition: correctly rounded exact sum. -/
def floatAdd (a b : Frac) : Frac := roundDouble (a.add b)

/-- Python int/int true division: correctly rounded exact quotient. -/
def floatDivInt (a b : Int) : Frac := roundDouble (Frac.divInt a b)

/-- Running minimum of span starts, mirroring
`if start is None or start > span["start"]: start = span["start"]`. -/
def env_start (trace : List Span) : Option Int :=
  trace.foldl (fun acc sp =>
    match acc with
    | none => some sp.start
    | some s => if s > sp.start then some sp.start else some s) none

/-- Running maximum of span finishes, mirroring
`if finish is None or finish < span["finish"]: finish = span["finish"]`. -/
def env_finish (trace : List Span) : Option Int :=
  trace.foldl (fun acc sp =>
    match acc with
    | none => some sp.finish
    | some f => if f < sp.finish then some sp.finish else some f) none

/-- `allspans_by_id[span["id"]] = span`, over the current trace's spans. -/
def allspans_by_id (trace : List Span) : Dict Span :=
  trace.foldl (fun d sp => dictInsert d sp.id sp) []

/-- `SAMPLES_PER_SEC = 10000.0`, exactly representable in binary64. -/
def SAMPLES_PER_SEC : Frac := Frac.ofInt 10000

/-- Python `int()` applied to an exact fraction: truncation toward zero. -/
def pyInt (q : Frac) : Int := q.num.tdiv q.den

/-- `trace_duration_sec = (finish - start)/1000000000.0`: the int operand
converts to float, then a correctly-rounded float division by the exactly
representable `1000000000.0`. -/
def trace_duration_sec (s f : Int) : Frac :=
  floatDiv (floatOfInt (f - s)) (Frac.ofInt 1000000000)

/-- `samples_per_trace = int(trace_duration_sec * SAMPLES_PER_SEC)`:
truncation of the correctly-rounded float product. -/
def samples_per_trace (s f : Int) : Int :=
  pyInt (floatMul (trace_duration_sec s f) SAMPLES_PER_SEC)

/-- `sample_time = start + i * ((finish-start)/samples_per_trace)`: the
int/int division is correctly rounded, then the int operands `i` and
`start` convert to float and the multiplication and addition round. -/
def sample_time (s f : Int) (count : Int) (i : Nat) : Frac :=
  floatAdd (floatOfInt s) (floatMul (floatOfInt i) (floatDivInt (f - s) count))

/-- Negation of the `continue` guard
`span["start"] > sample_time or span["finish"] < sample_time`. -/
def isActive (sp : Span) (t : Frac) : Bool :=
  !(t.blt (Frac.ofInt sp.start) || (Frac.ofInt sp.finish).blt t)

/-- The active-set dict built for one sample timestamp. -/
def spans_by_id (trace : List Span) (t : Frac) : Dict Span :=
  trace.foldl (fun d sp => if isActive sp t then dictInsert d sp.id sp else d) []

/-- The `parents` set: parent ids referenced by active spans (membership only). -/
def parentsAt (trace : List Span) (t : Frac) : List Nat :=
  trace.filterMap (fun sp => if isActive sp t then sp.parent_id else none)

/-- `leaves`: items of the active dict whose id is referenced by no active span. -/
def leaves (trace : List Span) (t : Frac) : List Span :=
  (spans_by_id trace t).filterMap
    (fun p => if p.1 ∈ parentsAt trace t then none else some p.2)

/-- `parent = spans_by_id.get(pid)` falling back to `allspans_by_id.get(pid)`. -/
def resolveParent (sById aById : Dict Span) (pid : Nat) : Option Span :=
  match dictGet sById pid with
  | some p => some p
  | none => dictGet aById pid

/-- The recursive `walk`, with explicit fuel; frames are accumulated
leaf-to-root, each tagged with `span["id"] in spans_by_id`. -/
def walk (sById aById : Dict Span) : Nat → List Nat → Span → List (Span × Bool)
  | 0, _, _ => []
  | fuel + 1, walked, sp =>
    if sp.id ∈ walked then []
    else
      let frame : Span × Bool := (sp, (dictGet sById sp.id).isSome)
      match sp.parent_id with
      | none => [frame]
      | some pid =>
        match resolveParent sById aById pid with
        | none => [frame]
        | some parent => frame :: walk sById aById fuel (sp.id :: walked) parent

/-- Fuel that provably exceeds the walk's maximal depth for this trace. -/
def walkFuel (trace : List Span) : Nat := 2 * trace.length + 2

/-- One leaf's walk as performed by the program (fresh `walked`, ample fuel). -/
def walkFull (trace : List Span) (t : Frac) (leaf : Span) : List (Span × Bool) :=
  walk (spans_by_id trace t) (allspans_by_id trace) (walkFuel trace) [] leaf

/-- Both id-keyed dicts built by the program map each key to a span whose
`id` field is that key. -/
def WfDict (d : Dict Span) : Prop := ∀ p ∈ d, p.2.id = p.1

/-- Number of dict keys not yet visited: the walk's termination measure. -/
def keysRem (sById aById : Dict Span) (walked : List Nat) : Nat :=
  ((dictKeys sById ++ dictKeys aById).toFinset \ walked.toFinset).card

/-- The span the walk would recurse to from `sp`, if any. -/
def nextParent (sById aById : Dict Span) (sp : Span) : Option Span :=
  match sp.parent_id with
  | none => none
  | some pid => resolveParent sById aById pid

/-- One frame of `"[%s]%s.%s" % (active and "active" or "inactive", package, name)`. -/
def frameStr (fr : Span × Bool) : String :=
  "[" ++ (if fr.2 then "active" else "inactive") ++ "]"
    ++ fr.1.func.package ++ "." ++ fr.1.func.name

/-- `";".join(... for (span, active) in reversed(stack))`. -/
def stack_name (stack : List (Span × Bool)) : String :=
  String.intercalate ";" (stack.reverse.map frameStr)

/-- Spec-worded frame rendering: the `[active]`/`[inactive]` tag immediately
followed by `package + "." + name`. -/
def specFrameRender (sp : Span) (activeTag : Bool) : String :=
  (if activeTag then "[active]" else "[inactive]")
    ++ sp.func.package ++ "." ++ sp.func.name

/-- All stack keys generated at one sample timestamp, in leaf order. -/
def sampleStacks (trace : List Span) (t : Frac) : List String :=
  (leaves trace t).map (fun leaf => stack_name (walkFull trace t leaf))

/-- All stack keys generated by one trace, in generation order. -/
def traceStacks (trace : List Span) : List String :=
  match env_start trace, env_finish trace with
  | some s, some f =>
    (List.range (samples_per_trace s f).toNat).flatMap
      (fun i => sampleStacks trace (sample_time s f (samples_per_trace s f) i))
  | _, _ => []

/-- All stack keys generated by the whole input, in generation order. -/
def allStacks (traces : List (List Span)) : List String :=
  traces.flatMap traceStacks

/-- `stacks[stack_name] = stacks.get(stack_name, 0) + 1`. -/
def bump (d : List (String × Nat)) (k : String) : List (String × Nat) :=
  if d.any (fun p => p.1 == k) then
    d.map (fun p => if p.1 == k then (p.1, p.2 + 1) else p)
  else d ++ [(k, 1)]

/-- The `stacks` dict after processing every trace. -/
def aggregate (l : List String) : List (String × Nat) := l.foldl bump []

/-- `print(stack, count)` for every aggregated entry, in dict order. -/
def outputLines (traces : List (List Span)) : List String :=
  (aggregate (allStacks traces)).map (fun p => p.1 ++ " " ++ toString p.2)

/-!
Raw layer: spans as loosely-typed records whose field accesses can raise.
`package`/`name` are flattened: `none` models a missing `func` or a missing
sub-field (either way Python raises `KeyError` at access time).
-/

structure RawSpan where
  id : Option Nat
  parent_id : Option Nat
  start : Option Int
  finish : Option Int
  package : Option String
  name : Option String
deriving DecidableEq

/-- A span whose `id`/`start`/`finish` accesses already succeeded; the func
fields are still only accessed lazily when the span is rendered. -/
structure CSpan where
  id : Nat
  parent_id : Option Nat
  start : Int
  finish : Int
  package : Option String
  name : Option String
deriving DecidableEq

/-- Python `span["k"]`: raises when the field is absent. -/
def getField {α : Type} (o : Option α) (e : String) : Except String α :=
  match o with
  | some v => Except.ok v
  | none => Except.error e

/-- One iteration of the first per-trace loop.  Field accesses happen in
source order: `start`, then `finish`, then `id`. -/
def rawEnvStep (acc : (Option Int × Option Int) × Dict CSpan × List CSpan)
    (sp : RawSpan) :
    Except String ((Option Int × Option Int) × Dict CSpan × List CSpan) := do
  let s ← getField sp.start "KeyError: start"
  let f ← getField sp.finish "KeyError: finish"
  let i ← getField sp.id "KeyError: id"
  let c : CSpan := ⟨i, sp.parent_id, s, f, sp.package, sp.name⟩
  let st := match acc.1.1 with
    | none => some s
    | some cur => if cur > s then some s else some cur
  let fi := match acc.1.2 with
    | none => some f
    | some cur => if cur < f then some f else some cur
  pure ((st, fi), dictInsert acc.2.1 i c, acc.2.2 ++ [c])

/-- The first per-trace loop: running min/max of `start`/`finish`, the
`allspans_by_id` dict, and the checked spans in trace order. -/
def rawEnvIndex (trace : List RawSpan) :
    Except String ((Option Int × Option Int) × Dict CSpan × List CSpan) :=
  trace.foldlM rawEnvStep ((none, none), ([], []))

def cIsActive (sp : CSpan) (t : Frac) : Bool :=
  !(t.blt (Frac.ofInt sp.start) || (Frac.ofInt sp.finish).blt t)

def cSpans_by_id (trace : List CSpan) (t : Frac) : Dict CSpan :=
  trace.foldl (fun d sp => if cIsActive sp t then dictInsert d sp.id sp else d) []

def cParentsAt (trace : List CSpan) (t : Frac) : List Nat :=
  trace.filterMap (fun sp => if cIsActive sp t then sp.parent_id else none)

def cLeaves (trace : List CSpan) (t : Frac) : List CSpan :=
  (cSpans_by_id trace t).filterMap
    (fun p => if p.1 ∈ cParentsAt trace t then none else some p.2)

def cResolveParent (sById aById : Dict CSpan) (pid : Nat) : Option CSpan :=
  match dictGet sById pid with
  | some p => some p
  | none => dictGet aById pid

def cWalk (sById aById : Dict CSpan) : Nat → List Nat → CSpan → List (CSpan × Bool)
  | 0, _, _ => []
  | fuel + 1, walked, sp =>
    if sp.id ∈ walked then []
    else
      let frame : CSpan × Bool := (sp, (dictGet sById sp.id).isSome)
      match sp.parent_id with
      | none => [frame]
      | some pid =>
        match cResolveParent sById aById pid with
        | none => [frame]
        | some parent => frame :: cWalk sById aById fuel (sp.id :: walked) parent

/-- Rendering one frame accesses `func.package` and `func.name`. -/
def cFrameStr (fr : CSpan × Bool) : Except String String := do
  let pkg ← getField fr.1.package "KeyError: package"
  let nm ← getField fr.1.name "KeyError: name"
  pure ("[" ++ (if fr.2 then "active" else "inactive") ++ "]" ++ pkg ++ "." ++ nm)

def cStack_name (stack : List (CSpan × Bool)) : Except String String := do
  let frames ← stack.reverse.mapM cFrameStr
  pure (String.intercalate ";" frames)

/-- Processing one trace, threading the global `stacks` dict. -/
def rawTraceStep (acc0 : List (String × Nat)) (trace : List RawSpan) :
    Except String (List (String × Nat)) := do
  let (env, aById, cs) ← rawEnvIndex trace
  let s ← getField env.1 "TypeError: unsupported operand"
  let f ← getField env.2 "TypeError: unsupported operand"
  let count := samples_per_trace s f
  (List.range count.toNat).foldlM (fun st i => do
    let t := sample_time s f count i
    let sById := cSpans_by_id cs t
    (cLeaves cs t).foldlM (fun st2 leaf => do
      let key ← cStack_name (cWalk sById aById (2 * cs.length + 2) [] leaf)
      pure (bump st2 key)) st) acc0

/-- Degenerate entry point for C7: processing a single trace on its own. -/
def rawProcessTrace (trace : List RawSpan) : Except String (List (String × Nat)) :=
  rawTraceStep [] trace

/-- The whole program over raw input: output lines exist only when no trace
raised; Python prints only after every trace has been processed. -/
def rawRun (traces : List (List RawSpan)) : Except String (List String) := do
  let st ← traces.foldlM rawTraceStep []
  pure (st.map (fun p => p.1 ++ " " ++ toString p.2))

/-! Concrete inputs used by counterexamples and witnesses. -/

def fA : Func := ⟨"a", "A"⟩
def fB : Func := ⟨"b", "B"⟩

/-- Span in trace 1 whose `parent_id` points at a span of trace 2. -/
def exSpanA : Span := ⟨1, some 2, 0, 100000, fA⟩
def exSpanB : Span := ⟨2, none, 0, 100000, fB⟩
def exTrace1 : List Span := [exSpanA]
def exTrace2 : List Span := [exSpanB]
def exTraces : List (List Span) := [exTrace1, exTrace2]

def wSpan : Span := ⟨1, none, 0, 1000000000, ⟨"pkg", "F"⟩⟩
def wTrace : List Span := [wSpan]

/-- Leaf 1 hangs under a parent cycle 2 → 3 → 2. -/
def cycTrace : List Span :=
  [⟨1, some 2, 0, 100000, fA⟩, ⟨2, some 3, 0, 100000, fB⟩, ⟨3, some 2, 0, 100000, fB⟩]

def rawFull : RawSpan := ⟨some 7, none, some 5, some 9, some "p", some "f"⟩

/-- Required func fields missing, but the trace has zero duration. -/
def rawNoFunc : RawSpan := ⟨some 1, none, some 0, some 0, none, none⟩

/-- Required `start` field missing. -/
def rawNoStart : RawSpan := ⟨some 1, none, none, some 0, some "p", some "f"⟩

/-- A 300000 ns trace: the program computes
`int((300000/1e9)*10000.0) = int(2.9999999999999996) = 2` samples, one
below the exact floor 3. -/
def c2Trace : List Span := [⟨1, none, 0, 300000, ⟨"p", "f"⟩⟩]

/-- A 999999999 ns trace: its per-sample step `999999999/9999` is not a
dyadic rational, so the float sample times differ from the exact formula. -/
def c3Trace : List Span := [⟨1, none, 0, 999999999, ⟨"p", "f"⟩⟩]

/-- The spec's idealized sampling formula `start + i × ((finish − start) /
count)` in exact rational arithmetic, named for comparison with the
program's float-evaluated `sample_time`. -/
def specSampleFormula (s f c : Int) (i : Nat) : ℚ :=
  (s : ℚ) + (i : ℚ) * (((f - s : Int) : ℚ) / ((c : Int) : ℚ))

/-- A trace whose leaf's parent exists in the trace but does not overlap the
sample timestamp 0: the fallback lookup should tag it `[inactive]`. -/
def inactTrace : List Span :=
  [⟨1, some 2, 0, 100000, fA⟩, ⟨2, none, 200000, 300000, fB⟩]

/-- Value stored under a key of the `stacks` dict, 0 when absent
(the `stacks.get(stack_name, 0)` read). -/
def lookupCount (d : List (String × Nat)) (k : String) : Nat :=
  ((d.find? (fun p => p.1 == k)).map (fun p => p.2)).getD 0

/-!
Theorems.  First, the bridge between `Frac` and exact rational arithmetic.
-/

theorem Frac.toRat_ofInt (n : Int) : (Frac.ofInt n).toRat = (n : ℚ) := by
  simp [Frac.ofInt, Frac.toRat]

theorem Frac.toRat_divInt (a b : Int) :
    (Frac.divInt a b).toRat = (a : ℚ) / (b : ℚ) := by
  unfold Frac.divInt Frac.toRat
  split
  · push_cast
    rw [neg_div_neg_eq]
  · rfl

theorem Frac.toRat_mul (a b : Frac) : (a.mul b).toRat = a.toRat * b.toRat := by
  unfold Frac.mul Frac.toRat
  push_cast
  rw [div_mul_div_comm]

theorem Frac.toRat_add (a b : Frac) (ha : a.den ≠ 0) (hb : b.den ≠ 0) :
    (a.add b).toRat = a.toRat + b.toRat := by
  unfold Frac.add Frac.toRat
  push_cast
  rw [div_add_div _ _ (by exact_mod_cast ha) (by exact_mod_cast hb)]
  ring_nf

theorem Frac.blt_iff (a b : Frac) (ha : 0 < a.den) (hb : 0 < b.den) :
    a.blt b = true ↔ a.toRat < b.toRat := by
  unfold Frac.blt Frac.toRat
  rw [decide_eq_true_iff]
  rw [div_lt_div_iff₀ (by exact_mod_cast ha) (by exact_mod_cast hb)]
  constructor <;> intro h <;> exact_mod_cast h

theorem pyInt_eq_floor (q : Frac) (hd : 0 < q.den) (hn : 0 ≤ q.num) :
    pyInt q = ⌊q.toRat⌋ := by
  unfold pyInt Frac.toRat
  rw [Int.tdiv_eq_ediv hn (le_of_lt hd)]
  have hden : (q.den : ℚ) = ((q.den.toNat : ℕ) : ℚ) := by
    exact_mod_cast congrArg (fun z : Int => (z : ℚ))
      (Int.toNat_of_nonneg (le_of_lt hd)).symm
  rw [hden, Rat.floor_intCast_div_natCast, Int.toNat_of_nonneg (le_of_lt hd)]

theorem pyInt_nonpos (q : Frac) (hd : 0 ≤ q.den) (hn : q.num ≤ 0) :
    pyInt q ≤ 0 := by
  unfold pyInt
  have h : q.num.tdiv q.den = -((-q.num).tdiv q.den) := by
    rw [Int.neg_tdiv, neg_neg]
  rw [h]
  have : 0 ≤ (-q.num).tdiv q.den := Int.tdiv_nonneg (by omega) hd
  omega

/-! Envelope: the first loop computes the least start and greatest finish. -/

theorem env_start_go (trace : List Span) : ∀ (a : Int),
    ∃ s, trace.foldl (fun acc sp =>
        match acc with
        | none => some sp.start
        | some s => if s > sp.start then some sp.start else some s) (some a) = some s
      ∧ s ≤ a ∧ (∀ sp ∈ trace, s ≤ sp.start)
      ∧ (s = a ∨ ∃ sp ∈ trace, sp.start = s) := by
  induction trace with
  | nil => intro a; exact ⟨a, rfl, le_refl a, by simp, Or.inl rfl⟩
  | cons sp rest ih =>
    intro a
    by_cases hlt : a > sp.start
    · obtain ⟨s, hfold, hle, hall, hatt⟩ := ih sp.start
      refine ⟨s, by simpa [hlt] using hfold, by omega, ?_, ?_⟩
      · intro sp' hsp'
        rcases List.mem_cons.mp hsp' with rfl | h
        · omega
        · exact hall sp' h
      · rcases hatt with h | ⟨sp', hsp', h⟩
        · exact Or.inr ⟨sp, List.mem_cons_self sp rest, h.symm⟩
        · exact Or.inr ⟨sp', List.mem_cons_of_mem sp hsp', h⟩
    · obtain ⟨s, hfold, hle, hall, hatt⟩ := ih a
      refine ⟨s, by simpa [hlt] using hfold, hle, ?_, ?_⟩
      · intro sp' hsp'
        rcases List.mem_cons.mp hsp' with rfl | h
        · omega
        · exact hall sp' h
      · rcases hatt with h | ⟨sp', hsp', h⟩
        · exact Or.inl h
        · exact Or.inr ⟨sp', List.mem_cons_of_mem sp hsp', h⟩

theorem env_finish_go (trace : List Span) : ∀ (a : Int),
    ∃ f, trace.foldl (fun acc sp =>
        match acc with
        | none => some sp.finish
        | some f => if f < sp.finish then some sp.finish else some f) (some a) = some f
      ∧ a ≤ f ∧ (∀ sp ∈ trace, sp.finish ≤ f)
      ∧ (f = a ∨ ∃ sp ∈ trace, sp.finish = f) := by
  induction trace with
  | nil => intro a; exact ⟨a, rfl, le_refl a, by simp, Or.inl rfl⟩
  | cons sp rest ih =>
    intro a
    by_cases hlt : a < sp.finish
    · obtain ⟨f, hfold, hle, hall, hatt⟩ := ih sp.finish
      refine ⟨f, by simpa [hlt] using hfold, by omega, ?_, ?_⟩
      · intro sp' hsp'
        rcases List.mem_cons.mp hsp' with rfl | h
        · omega
        · exact hall sp' h
      · rcases hatt with h | ⟨sp', hsp', h⟩
        · exact Or.inr ⟨sp, List.mem_cons_self sp rest, h.symm⟩
        · exact Or.inr ⟨sp', List.mem_cons_of_mem sp hsp', h⟩
    · obtain ⟨f, hfold, hle, hall, hatt⟩ := ih a
      refine ⟨f, by simpa [hlt] using hfold, hle, ?_, ?_⟩
      · intro sp' hsp'
        rcases List.mem_cons.mp hsp' with rfl | h
        · omega
        · exact hall sp' h
      · rcases hatt with h | ⟨sp', hsp', h⟩
        · exact Or.inl h
        · exact Or.inr ⟨sp', List.mem_cons_of_mem sp hsp', h⟩

theorem env_start_spec (trace : List Span) (s : Int) (h : env_start trace = some s) :
    (∀ sp ∈ trace, s ≤ sp.start) ∧ ∃ sp ∈ trace, sp.start = s := by
  cases trace with
  | nil => simp [env_start] at h
  | cons sp rest =>
    obtain ⟨s', hfold, hle, hall, hatt⟩ := env_start_go rest sp.start
    rw [env_start] at h
    simp only [List.foldl_cons] at h
    rw [hfold] at h
    obtain rfl : s' = s := Option.some.inj h
    refine ⟨?_, ?_⟩
    · intro sp' hsp'
      rcases List.mem_cons.mp hsp' with rfl | h'
      · omega
      · exact hall sp' h'
    · rcases hatt with h' | ⟨sp', hsp', h'⟩
      · exact ⟨sp, List.mem_cons_self sp rest, h'.symm⟩
      · exact ⟨sp', List.mem_cons_of_mem sp hsp', h'⟩

theorem env_finish_spec (trace : List Span) (f : Int) (h : env_finish trace = some f) :
    (∀ sp ∈ trace, sp.finish ≤ f) ∧ ∃ sp ∈ trace, sp.finish = f := by
  cases trace with
  | nil => simp [env_finish] at h
  | cons sp rest =>
    obtain ⟨f', hfold, hle, hall, hatt⟩ := env_finish_go rest sp.finish
    rw [env_finish] at h
    simp only [List.foldl_cons] at h
    rw [hfold] at h
    obtain rfl : f' = f := Option.some.inj h
    refine ⟨?_, ?_⟩
    · intro sp' hsp'
      rcases List.mem_cons.mp hsp' with rfl | h'
      · omega
      · exact hall sp' h'
    · rcases hatt with h' | ⟨sp', hsp', h'⟩
      · exact ⟨sp, List.mem_cons_self sp rest, h'.symm⟩
      · exact ⟨sp', List.mem_cons_of_mem sp hsp', h'⟩

/-! Sampler arithmetic: sign and denominator facts of the rounded values,
and the corrected sample-count / sample-time claims. -/

theorem roundPos_num_nonneg (num den : Nat) : 0 ≤ (roundPos num den).num := by
  unfold roundPos
  split
  · exact Int.natCast_nonneg _
  · exact mul_nonneg (Int.natCast_nonneg _) (Int.natCast_nonneg _)

theorem roundPos_den_pos (num den : Nat) : 0 < (roundPos num den).den := by
  unfold roundPos
  split
  · show (0:Int) < ((2 ^ (roundScale num den).toNat : Nat) : Int)
    exact_mod_cast pow_pos (show (0:Nat) < 2 by norm_num) _
  · norm_num

theorem roundDouble_den_pos (a : Frac) : 0 < (roundDouble a).den := by
  unfold roundDouble
  split
  · norm_num
  · split
    · exact roundPos_den_pos _ _
    · exact roundPos_den_pos _ _

theorem roundDouble_num_nonneg (a : Frac) (h : 0 ≤ a.num) :
    0 ≤ (roundDouble a).num := by
  unfold roundDouble
  split
  · norm_num
  · split
    · exact roundPos_num_nonneg _ _
    · exfalso
      omega

theorem roundDouble_num_nonpos (a : Frac) (h : a.num ≤ 0) :
    (roundDouble a).num ≤ 0 := by
  unfold roundDouble
  split
  · norm_num
  · split
    · exfalso
      omega
    · show -(roundPos a.num.natAbs a.den.natAbs).num ≤ 0
      have := roundPos_num_nonneg a.num.natAbs a.den.natAbs
      omega

theorem samples_per_trace_nonpos (s f : Int) (h : f - s ≤ 0) :
    samples_per_trace s f ≤ 0 := by
  unfold samples_per_trace
  apply pyInt_nonpos
  · exact le_of_lt (roundDouble_den_pos _)
  · apply roundDouble_num_nonpos
    have h1 : (trace_duration_sec s f).num ≤ 0 := by
      unfold trace_duration_sec
      apply roundDouble_num_nonpos
      have h2 : (floatOfInt (f - s)).num ≤ 0 := by
        apply roundDouble_num_nonpos
        simpa using h
      unfold Frac.div Frac.ofInt
      rw [if_neg (by norm_num)]
      simpa using h2
    show (trace_duration_sec s f).num * (10000 : Int) ≤ 0
    nlinarith [h1]

theorem samples_per_trace_num_nonneg (s f : Int) (h : 0 ≤ f - s) :
    0 ≤ (floatMul (trace_duration_sec s f) SAMPLES_PER_SEC).num := by
  apply roundDouble_num_nonneg
  have h1 : 0 ≤ (trace_duration_sec s f).num := by
    unfold trace_duration_sec
    apply roundDouble_num_nonneg
    have h2 : 0 ≤ (floatOfInt (f - s)).num := by
      apply roundDouble_num_nonneg
      simpa using h
    unfold Frac.div Frac.ofInt
    rw [if_neg (by norm_num)]
    simpa using h2
  show 0 ≤ (trace_duration_sec s f).num * (10000 : Int)
  exact mul_nonneg h1 (by norm_num)

set_option maxRecDepth 40000 in
/-- Counterexample to claim C2 as stated: at a 300000 ns envelope the
program truncates the twice-rounded double `(300000/1e9)*10000.0 =
2.9999999999999996` to 2 sample points, while the exact floor of
`duration_seconds × sample_rate` is 3. -/
theorem c2_counterexample :
    env_start c2Trace = some 0 ∧ env_finish c2Trace = some 300000 ∧
    (samples_per_trace 0 300000).toNat = 2 ∧
    ⌊((300000 - 0 : Int) : ℚ) / 1000000000 * 10000⌋ = 3 ∧
    ((samples_per_trace 0 300000).toNat : Int)
      ≠ ⌊((300000 - 0 : Int) : ℚ) / 1000000000 * 10000⌋ := by
  have h2 : (samples_per_trace 0 300000).toNat = 2 := by decide
  have h3 : ⌊((300000 - 0 : Int) : ℚ) / 1000000000 * 10000⌋ = 3 := by
    have hq : ((300000 - 0 : Int) : ℚ) / 1000000000 * 10000 = ((3 : Int) : ℚ) := by
      norm_num
    rw [hq, Int.floor_intCast]
  refine ⟨by decide, by decide, h2, h3, ?_⟩
  rw [h2, h3]
  decide

/-- Claim C2 amended: the number of sample points is the truncation of the
IEEE-binary64 evaluation of `(duration/1e9) × 10000.0` — for nonnegative
duration, the floor of that rounded product, which can differ from the
exact `floor(duration_seconds × sample_rate)` — and a trace of zero or
negative duration still yields zero sample points and contributes nothing
to the output.  The envelope really is the least span start and the
greatest span finish. -/
theorem c2_sample_count (trace : List Span) (s f : Int)
    (hs : env_start trace = some s) (hf : env_finish trace = some f) :
    (∀ sp ∈ trace, s ≤ sp.start ∧ sp.finish ≤ f) ∧
    (∃ sp ∈ trace, sp.start = s) ∧ (∃ sp ∈ trace, sp.finish = f) ∧
    (0 ≤ f - s →
      (((samples_per_trace s f).toNat : Int)
        = ⌊(floatMul (trace_duration_sec s f) SAMPLES_PER_SEC).toRat⌋)) ∧
    (f - s ≤ 0 →
      (samples_per_trace s f).toNat = 0 ∧ traceStacks trace = []) := by
  obtain ⟨hsall, hsex⟩ := env_start_spec trace s hs
  obtain ⟨hfall, hfex⟩ := env_finish_spec trace f hf
  refine ⟨fun sp h => ⟨hsall sp h, hfall sp h⟩, hsex, hfex, ?_, ?_⟩
  · intro hpos
    have hden := roundDouble_den_pos ((trace_duration_sec s f).mul SAMPLES_PER_SEC)
    have hnum := samples_per_trace_num_nonneg s f hpos
    have hfl : samples_per_trace s f
        = ⌊(floatMul (trace_duration_sec s f) SAMPLES_PER_SEC).toRat⌋ := by
      unfold samples_per_trace
      exact pyInt_eq_floor _ hden hnum
    have h0 : 0 ≤ samples_per_trace s f := by
      unfold samples_per_trace pyInt
      exact Int.tdiv_nonneg hnum (le_of_lt hden)
    rw [Int.toNat_of_nonneg h0, hfl]
  · intro hneg
    have h0 : samples_per_trace s f ≤ 0 := samples_per_trace_nonpos s f hneg
    have htn : (samples_per_trace s f).toNat = 0 := by omega
    exact ⟨htn, by simp [traceStacks, hs, hf, htn]⟩

set_option maxRecDepth 40000 in
theorem c2_sample_count_witness :
    env_start wTrace = some 0 ∧ env_finish wTrace = some 1000000000 ∧
    ((∀ sp ∈ wTrace, (0:Int) ≤ sp.start ∧ sp.finish ≤ 1000000000) ∧
     (∃ sp ∈ wTrace, sp.start = 0) ∧ (∃ sp ∈ wTrace, sp.finish = 1000000000) ∧
     (0 ≤ (1000000000:Int) - 0 →
       (((samples_per_trace 0 1000000000).toNat : Int)
         = ⌊(floatMul (trace_duration_sec 0 1000000000) SAMPLES_PER_SEC).toRat⌋)) ∧
     ((1000000000:Int) - 0 ≤ 0 →
       (samples_per_trace 0 1000000000).toNat = 0 ∧ traceStacks wTrace = [])) :=
  ⟨by decide, by decide, c2_sample_count wTrace 0 1000000000 (by decide) (by decide)⟩

theorem Frac.toRat_ne_of_cross (a : Frac) (p q : Int) (hq : 0 < q)
    (hden : 0 < a.den) (h : a.num * q ≠ p * a.den) :
    a.toRat ≠ (p : ℚ) / (q : ℚ) := by
  unfold Frac.toRat
  intro hc
  apply h
  have hdq : ((a.den : ℚ)) ≠ 0 := by
    exact_mod_cast (by omega : a.den ≠ 0)
  have hqq : ((q : ℚ)) ≠ 0 := by
    exact_mod_cast (by omega : q ≠ 0)
  have h2 := (div_eq_div_iff hdq hqq).mp hc
  exact_mod_cast h2

set_option maxRecDepth 40000 in
/-- Counterexample to claim C3 as stated: at a 999999999 ns trace the
program's count is 9999, the per-sample step `999999999/9999` is not a
dyadic rational, and the float-evaluated sample time at `i = 1` differs
from the exact `start + i × ((finish − start) / count)`. -/
theorem c3_counterexample :
    env_start c3Trace = some 0 ∧ env_finish c3Trace = some 999999999 ∧
    (0 : Int) < 999999999 ∧ 1 ≤ samples_per_trace 0 999999999 ∧
    (1 : Int) < samples_per_trace 0 999999999 ∧
    (sample_time 0 999999999 (samples_per_trace 0 999999999) 1).toRat
      ≠ (0 : ℚ) + (1 : ℚ) * (((999999999 - 0 : Int) : ℚ)
          / ((samples_per_trace 0 999999999 : Int) : ℚ)) := by
  have hc : samples_per_trace 0 999999999 = 9999 := by decide
  refine ⟨by decide, by decide, by decide, by rw [hc]; norm_num,
    by rw [hc]; norm_num, ?_⟩
  rw [hc]
  have hne := Frac.toRat_ne_of_cross (sample_time 0 999999999 9999 1) 999999999 9999
    (by norm_num) (by decide) (by decide)
  intro heq
  exact hne (heq.trans (by push_cast; ring))

/-- Claim C3 amended: each sample timestamp is the IEEE-binary64
evaluation of `start + i * ((finish - start)/count)` (the int operands
converted to float and every operation correctly rounded), which can
differ from the exact value of that formula; the exact-arithmetic formula
itself, `specSampleFormula`, matches the claim's expression for every
`i` in `[0, count)` and its last sample is strictly before `finish`. -/
theorem c3_sample_times (trace : List Span) (s f : Int)
    (hs : env_start trace = some s) (hf : env_finish trace = some f)
    (hsf : s < f) (hc : 1 ≤ samples_per_trace s f) :
    (∀ i : Nat, sample_time s f (samples_per_trace s f) i
        = roundDouble ((roundDouble ⟨s, 1⟩).add
            (roundDouble ((roundDouble ⟨(i : Int), 1⟩).mul
              (roundDouble (Frac.divInt (f - s) (samples_per_trace s f))))))) ∧
    (∀ i : Nat, (i : Int) < samples_per_trace s f →
        specSampleFormula s f (samples_per_trace s f) i
          = (s : ℚ) + (i : ℚ)
              * (((f - s : Int) : ℚ) / ((samples_per_trace s f : Int) : ℚ))) ∧
    specSampleFormula s f (samples_per_trace s f)
      ((samples_per_trace s f).toNat - 1) < (f : ℚ) := by
  have hc0 : (0:Int) < samples_per_trace s f := by omega
  refine ⟨fun i => rfl, fun i _ => rfl, ?_⟩
  unfold specSampleFormula
  set c : Int := samples_per_trace s f with hcdef
  have hcq : (0:ℚ) < (c:ℚ) := by exact_mod_cast hc0
  have hiq : (((c.toNat - 1 : Nat)) : ℚ) = (c:ℚ) - 1 := by
    have h1 : ((c.toNat - 1 : Nat) : Int) = c - 1 := by omega
    exact_mod_cast h1
  rw [hiq]
  have hdq : (0:ℚ) < ((f - s : Int):ℚ) := by
    exact_mod_cast (by omega : (0:Int) < f - s)
  have key : ((c:ℚ) - 1) * (((f - s : Int):ℚ) / (c:ℚ))
      = ((f - s : Int):ℚ) - ((f - s : Int):ℚ)/(c:ℚ) := by
    field_simp
    ring
  rw [key]
  have hq : (0:ℚ) < ((f - s : Int):ℚ)/(c:ℚ) := div_pos hdq hcq
  have hcast : ((f - s : Int) : ℚ) = (f:ℚ) - (s:ℚ) := by push_cast; ring
  linarith [hq, hcast.ge, hcast.le]

set_option maxRecDepth 40000 in
theorem c3_sample_times_witness :
    env_start wTrace = some 0 ∧ env_finish wTrace = some 1000000000 ∧
    (0:Int) < 1000000000 ∧ 1 ≤ samples_per_trace 0 1000000000 ∧
    ((∀ i : Nat, sample_time 0 1000000000 (samples_per_trace 0 1000000000) i
        = roundDouble ((roundDouble ⟨0, 1⟩).add
            (roundDouble ((roundDouble ⟨(i : Int), 1⟩).mul
              (roundDouble (Frac.divInt (1000000000 - 0)
                (samples_per_trace 0 1000000000))))))) ∧
    (∀ i : Nat, (i : Int) < samples_per_trace 0 1000000000 →
        specSampleFormula 0 1000000000 (samples_per_trace 0 1000000000) i
          = ((0:Int) : ℚ) + (i : ℚ)
              * (((1000000000 - 0 : Int) : ℚ)
                 / ((samples_per_trace 0 1000000000 : Int) : ℚ))) ∧
    specSampleFormula 0 1000000000 (samples_per_trace 0 1000000000)
      ((samples_per_trace 0 1000000000).toNat - 1) < ((1000000000:Int) : ℚ)) :=
  ⟨by decide, by decide, by decide, by decide,
    c3_sample_times wTrace 0 1000000000 (by decide) (by decide) (by decide) (by decide)⟩

/-! Dict lemmas. -/

theorem dictInsert_not_mem {α : Type} (d : Dict α) (k : Nat) (v : α)
    (h : k ∉ dictKeys d) : dictInsert d k v = d ++ [(k, v)] := by
  unfold dictInsert
  rw [if_neg]
  intro hc
  rw [List.any_eq_true] at hc
  obtain ⟨p, hp, hpk⟩ := hc
  exact h (by unfold dictKeys; exact List.mem_map.mpr ⟨p, hp, by simpa using hpk⟩)

theorem dictGet_isSome_of_mem {α : Type} (d : Dict α) (k : Nat) (v : α)
    (h : (k, v) ∈ d) : (dictGet d k).isSome = true := by
  unfold dictGet
  have hf : (List.find? (fun p => p.1 == k) d).isSome = true :=
    List.find?_isSome.mpr ⟨(k, v), h, by simp⟩
  obtain ⟨p, hp⟩ := Option.isSome_iff_exists.mp hf
  rw [hp]
  rfl

theorem dictGet_mem {α : Type} (d : Dict α) (k : Nat) (v : α)
    (h : dictGet d k = some v) : (k, v) ∈ d := by
  unfold dictGet at h
  obtain ⟨p, hfind, hsnd⟩ := Option.map_eq_some'.mp h
  have hmem := List.mem_of_find?_eq_some hfind
  have hkey := List.find?_some hfind
  have : p.1 = k := by simpa using hkey
  have : p = (k, v) := by
    cases p
    simp_all
  rw [← this]
  exact hmem

/-- The active test agrees with the inclusive bounds of the claim. -/
theorem isActive_iff (sp : Span) (t : Frac) (hden : 0 < t.den) :
    isActive sp t = true ↔ ((sp.start : ℚ) ≤ t.toRat ∧ t.toRat ≤ (sp.finish : ℚ)) := by
  have h1 := Frac.blt_iff t (Frac.ofInt sp.start) hden (by norm_num [Frac.ofInt])
  have h2 := Frac.blt_iff (Frac.ofInt sp.finish) t (by norm_num [Frac.ofInt]) hden
  rw [Frac.toRat_ofInt] at h1 h2
  have e1 : (t.blt (Frac.ofInt sp.start) = false) ↔ ((sp.start:ℚ) ≤ t.toRat) := by
    rw [Bool.eq_false_iff, Ne, h1, not_lt]
  have e2 : ((Frac.ofInt sp.finish).blt t = false) ↔ (t.toRat ≤ (sp.finish:ℚ)) := by
    rw [Bool.eq_false_iff, Ne, h2, not_lt]
  unfold isActive
  rw [Bool.not_eq_true', Bool.or_eq_false_iff, e1, e2]

theorem spans_by_id_go (t : Frac) : ∀ (trace : List Span) (d : Dict Span),
    (∀ sp ∈ trace, sp.id ∉ dictKeys d) → (trace.map Span.id).Nodup →
    trace.foldl (fun d sp => if isActive sp t then dictInsert d sp.id sp else d) d
      = d ++ (trace.filter (fun sp => isActive sp t)).map (fun sp => (sp.id, sp)) := by
  intro trace
  induction trace with
  | nil => intro d _ _; simp
  | cons sp rest ih =>
    intro d hfresh hnd
    have hnd' : (rest.map Span.id).Nodup := by
      rw [List.map_cons, List.nodup_cons] at hnd
      exact hnd.2
    have hsp_not : sp.id ∉ rest.map Span.id := by
      rw [List.map_cons, List.nodup_cons] at hnd
      exact hnd.1
    simp only [List.foldl_cons]
    by_cases ha : isActive sp t = true
    · rw [if_pos ha]
      rw [dictInsert_not_mem d sp.id sp (hfresh sp (List.mem_cons_self sp rest))]
      rw [ih (d ++ [(sp.id, sp)]) ?_ hnd']
      · rw [List.filter_cons, if_pos ha, List.map_cons, List.append_assoc]
        rfl
      · intro sp' hsp'
        unfold dictKeys
        rw [List.map_append, List.mem_append]
        rintro (hin | hin)
        · exact hfresh sp' (List.mem_cons_of_mem sp hsp') hin
        · simp only [List.map_cons, List.map_nil, List.mem_singleton] at hin
          exact hsp_not (hin ▸ List.mem_map.mpr ⟨sp', hsp', rfl⟩)
    · rw [if_neg ha]
      rw [ih d (fun sp' h => hfresh sp' (List.mem_cons_of_mem sp h)) hnd']
      rw [List.filter_cons, if_neg ha]

theorem spans_by_id_eq_filter (trace : List Span) (t : Frac)
    (hnd : (trace.map Span.id).Nodup) :
    spans_by_id trace t
      = (trace.filter (fun sp => isActive sp t)).map (fun sp => (sp.id, sp)) := by
  unfold spans_by_id
  rw [spans_by_id_go t trace [] (by simp [dictKeys]) hnd]
  rfl

theorem spans_by_id_mem (trace : List Span) (t : Frac) (sp : Span)
    (hnd : (trace.map Span.id).Nodup) :
    sp ∈ (spans_by_id trace t).map Prod.snd ↔ (sp ∈ trace ∧ isActive sp t = true) := by
  rw [spans_by_id_eq_filter trace t hnd, List.map_map]
  constructor
  · intro h
    obtain ⟨sp', hsp', heq⟩ := List.mem_map.mp h
    obtain rfl : sp' = sp := heq
    exact List.mem_filter.mp hsp' |>.imp id (fun h => h)
  · intro ⟨hmem, ha⟩
    exact List.mem_map.mpr ⟨sp, List.mem_filter.mpr ⟨hmem, ha⟩, rfl⟩

theorem parentsAt_mem (trace : List Span) (t : Frac) (pid : Nat) :
    pid ∈ parentsAt trace t
      ↔ ∃ sp2 ∈ trace, isActive sp2 t = true ∧ sp2.parent_id = some pid := by
  unfold parentsAt
  rw [List.mem_filterMap]
  constructor
  · rintro ⟨sp2, hmem, hf⟩
    by_cases ha : isActive sp2 t = true
    · rw [if_pos ha] at hf
      exact ⟨sp2, hmem, ha, hf⟩
    · rw [if_neg ha] at hf
      cases hf
  · rintro ⟨sp2, hmem, ha, hp⟩
    exact ⟨sp2, hmem, by rw [if_pos ha]; exact hp⟩

theorem leaves_mem (trace : List Span) (t : Frac) (sp : Span)
    (hnd : (trace.map Span.id).Nodup) :
    sp ∈ leaves trace t
      ↔ (sp ∈ trace ∧ isActive sp t = true ∧ sp.id ∉ parentsAt trace t) := by
  unfold leaves
  rw [spans_by_id_eq_filter trace t hnd, List.mem_filterMap]
  constructor
  · rintro ⟨⟨k, v⟩, hmem, hf⟩
    obtain ⟨sp', hsp', heq⟩ := List.mem_map.mp hmem
    obtain ⟨rfl, rfl⟩ : sp'.id = k ∧ sp' = v := by
      cases heq
      exact ⟨rfl, rfl⟩
    by_cases hp : sp'.id ∈ parentsAt trace t
    · rw [if_pos hp] at hf
      cases hf
    · rw [if_neg hp] at hf
      obtain rfl : sp' = sp := Option.some.inj hf
      have := List.mem_filter.mp hsp'
      exact ⟨this.1, this.2, hp⟩
  · rintro ⟨hmem, ha, hp⟩
    refine ⟨(sp.id, sp), List.mem_map.mpr ⟨sp, List.mem_filter.mpr ⟨hmem, ha⟩, rfl⟩, ?_⟩
    rw [if_neg hp]

/-- Claim C4: a span is in the active set iff `start ≤ t ≤ finish`
(inclusive on both bounds), and it is a leaf iff it is active and its id is
referenced as `parent_id` by no active span of that sample. -/
theorem c4_active_and_leaves (trace : List Span) (t : Frac) (sp : Span)
    (hnd : (trace.map Span.id).Nodup) (hden : 0 < t.den) :
    (sp ∈ (spans_by_id trace t).map Prod.snd ↔
      (sp ∈ trace ∧ ((sp.start : ℚ) ≤ t.toRat ∧ t.toRat ≤ (sp.finish : ℚ)))) ∧
    (sp ∈ leaves trace t ↔
      (sp ∈ trace ∧ ((sp.start : ℚ) ≤ t.toRat ∧ t.toRat ≤ (sp.finish : ℚ))
        ∧ ¬ ∃ sp2 ∈ trace, ((sp2.start : ℚ) ≤ t.toRat ∧ t.toRat ≤ (sp2.finish : ℚ))
            ∧ sp2.parent_id = some sp.id)) := by
  constructor
  · rw [spans_by_id_mem trace t sp hnd, isActive_iff sp t hden]
  · rw [leaves_mem trace t sp hnd, isActive_iff sp t hden, parentsAt_mem]
    constructor
    · rintro ⟨hmem, hb, hnp⟩
      refine ⟨hmem, hb, ?_⟩
      rintro ⟨sp2, hm2, hb2, hp2⟩
      exact hnp ⟨sp2, hm2, (isActive_iff sp2 t hden).mpr hb2, hp2⟩
    · rintro ⟨hmem, hb, hnp⟩
      refine ⟨hmem, hb, ?_⟩
      rintro ⟨sp2, hm2, ha2, hp2⟩
      exact hnp ⟨sp2, hm2, (isActive_iff sp2 t hden).mp ha2, hp2⟩

theorem c4_active_and_leaves_witness :
    ((wTrace.map Span.id).Nodup ∧ (0:Int) < (Frac.ofInt 0).den) ∧
    ((wSpan ∈ (spans_by_id wTrace (Frac.ofInt 0)).map Prod.snd ↔
      (wSpan ∈ wTrace ∧ ((wSpan.start : ℚ) ≤ (Frac.ofInt 0).toRat
        ∧ (Frac.ofInt 0).toRat ≤ (wSpan.finish : ℚ)))) ∧
    (wSpan ∈ leaves wTrace (Frac.ofInt 0) ↔
      (wSpan ∈ wTrace ∧ ((wSpan.start : ℚ) ≤ (Frac.ofInt 0).toRat
        ∧ (Frac.ofInt 0).toRat ≤ (wSpan.finish : ℚ))
        ∧ ¬ ∃ sp2 ∈ wTrace, ((sp2.start : ℚ) ≤ (Frac.ofInt 0).toRat
            ∧ (Frac.ofInt 0).toRat ≤ (sp2.finish : ℚ))
            ∧ sp2.parent_id = some wSpan.id))) :=
  ⟨⟨by decide, by decide⟩,
    c4_active_and_leaves wTrace (Frac.ofInt 0) wSpan (by decide) (by decide)⟩

/-! Walk lemmas. -/

theorem walk_succ (sById aById : Dict Span) (n : Nat) (walked : List Nat) (sp : Span) :
    walk sById aById (n+1) walked sp
      = if sp.id ∈ walked then []
        else
          match sp.parent_id with
          | none => [(sp, (dictGet sById sp.id).isSome)]
          | some pid =>
            match resolveParent sById aById pid with
            | none => [(sp, (dictGet sById sp.id).isSome)]
            | some parent =>
              (sp, (dictGet sById sp.id).isSome)
                :: walk sById aById n (sp.id :: walked) parent := rfl

theorem walk_flags (sById aById : Dict Span) :
    ∀ (fuel : Nat) (walked : List Nat) (sp : Span) (fr : Span × Bool),
      fr ∈ walk sById aById fuel walked sp
        → fr.2 = (dictGet sById fr.1.id).isSome := by
  intro fuel
  induction fuel with
  | zero =>
    intro walked sp fr hfr
    simp [walk] at hfr
  | succ n ih =>
    intro walked sp fr hfr
    rw [walk_succ] at hfr
    by_cases hw : sp.id ∈ walked
    · rw [if_pos hw] at hfr
      cases hfr
    · rw [if_neg hw] at hfr
      rcases hp : sp.parent_id with _ | pid
      · simp only [hp] at hfr
        rw [List.mem_singleton] at hfr
        subst hfr
        rfl
      · simp only [hp] at hfr
        rcases hr : resolveParent sById aById pid with _ | parent
        · simp only [hr] at hfr
          rw [List.mem_singleton] at hfr
          subst hfr
          rfl
        · simp only [hr] at hfr
          rcases List.mem_cons.mp hfr with rfl | hmem
          · rfl
          · exact ih (sp.id :: walked) parent fr hmem

theorem frameStr_eq (fr : Span × Bool) : frameStr fr = specFrameRender fr.1 fr.2 := by
  cases fr with
  | mk sp b => cases b <;> rfl

/-- Claim C5: every emitted stack key is the walked frame list reversed to
root-to-leaf order, each frame rendered as the `[active]`/`[inactive]` tag
followed by `package + "." + name`, joined with `;`; a frame is tagged
active iff its span id is a key of the sample's active-set mapping. -/
theorem c5_stack_rendering (trace : List Span) (t : Frac) (key : String)
    (hkey : key ∈ sampleStacks trace t) :
    ∃ leaf ∈ leaves trace t,
      key = String.intercalate ";"
        ((walkFull trace t leaf).reverse.map (fun fr => specFrameRender fr.1 fr.2))
      ∧ ∀ fr ∈ walkFull trace t leaf,
          fr.2 = (dictGet (spans_by_id trace t) fr.1.id).isSome := by
  obtain ⟨leaf, hleaf, hk⟩ := List.mem_map.mp hkey
  refine ⟨leaf, hleaf, ?_, ?_⟩
  · rw [← hk]
    unfold stack_name
    congr 1
    exact List.map_congr_left (fun fr _ => frameStr_eq fr)
  · intro fr hfr
    exact walk_flags _ _ _ _ _ fr hfr

theorem c5_stack_rendering_witness :
    ("[active]pkg.F" ∈ sampleStacks wTrace (Frac.ofInt 0)) ∧
    (∃ leaf ∈ leaves wTrace (Frac.ofInt 0),
      "[active]pkg.F" = String.intercalate ";"
        ((walkFull wTrace (Frac.ofInt 0) leaf).reverse.map
          (fun fr => specFrameRender fr.1 fr.2))
      ∧ ∀ fr ∈ walkFull wTrace (Frac.ofInt 0) leaf,
          fr.2 = (dictGet (spans_by_id wTrace (Frac.ofInt 0)) fr.1.id).isSome) :=
  ⟨by decide, c5_stack_rendering wTrace (Frac.ofInt 0) "[active]pkg.F" (by decide)⟩

/-! Well-formedness of the id-keyed dicts: every value's id is its key. -/

theorem dictInsert_wf (d : Dict Span) (k : Nat) (v : Span)
    (hd : WfDict d) (hv : v.id = k) : WfDict (dictInsert d k v) := by
  unfold dictInsert
  split
  · intro p hp
    obtain ⟨q, hq, he⟩ := List.mem_map.mp hp
    by_cases hqk : (q.1 == k) = true
    · rw [if_pos hqk] at he
      subst he
      exact hv
    · rw [if_neg hqk] at he
      subst he
      exact hd q hq
  · intro p hp
    rcases List.mem_append.mp hp with h | h
    · exact hd p h
    · rw [List.mem_singleton] at h
      subst h
      exact hv

theorem spans_by_id_wf (trace : List Span) (t : Frac) : WfDict (spans_by_id trace t) := by
  unfold spans_by_id
  have haux : ∀ (l : List Span) (d : Dict Span), WfDict d →
      WfDict (l.foldl (fun d sp => if isActive sp t then dictInsert d sp.id sp else d) d) := by
    intro l
    induction l with
    | nil => intro d hd; exact hd
    | cons sp rest ih =>
      intro d hd
      simp only [List.foldl_cons]
      apply ih
      by_cases ha : isActive sp t = true
      · rw [if_pos ha]
        exact dictInsert_wf d sp.id sp hd rfl
      · rw [if_neg ha]
        exact hd
  exact haux trace [] (fun p hp => absurd hp (List.not_mem_nil p))

theorem allspans_by_id_wf (trace : List Span) : WfDict (allspans_by_id trace) := by
  unfold allspans_by_id
  have haux : ∀ (l : List Span) (d : Dict Span), WfDict d →
      WfDict (l.foldl (fun d sp => dictInsert d sp.id sp) d) := by
    intro l
    induction l with
    | nil => intro d hd; exact hd
    | cons sp rest ih =>
      intro d hd
      simp only [List.foldl_cons]
      exact ih (dictInsert d sp.id sp) (dictInsert_wf d sp.id sp hd rfl)
  exact haux trace [] (fun p hp => absurd hp (List.not_mem_nil p))

theorem leaves_memKey (trace : List Span) (t : Frac) (leaf : Span)
    (h : leaf ∈ leaves trace t) : (leaf.id, leaf) ∈ spans_by_id trace t := by
  unfold leaves at h
  obtain ⟨⟨k, v⟩, hmem, hf⟩ := List.mem_filterMap.mp h
  by_cases hp : k ∈ parentsAt trace t
  · rw [if_pos hp] at hf
    cases hf
  · rw [if_neg hp] at hf
    obtain rfl : v = leaf := Option.some.inj hf
    have hk : v.id = k := spans_by_id_wf trace t (k, v) hmem
    rw [hk]
    exact hmem

theorem walk_head (sById aById : Dict Span) (n : Nat) (walked : List Nat) (sp : Span)
    (hw : sp.id ∉ walked) :
    (walk sById aById (n+1) walked sp).head?
      = some (sp, (dictGet sById sp.id).isSome) := by
  rw [walk_succ, if_neg hw]
  rcases hp : sp.parent_id with _ | pid
  · simp only [hp]
    rfl
  · simp only [hp]
    rcases hr : resolveParent sById aById pid with _ | parent <;> simp only [hr] <;> rfl

/-- Claim C10: the walk of a leaf starts with the leaf tagged active, so
after reversal the final (leaf-position) frame of every emitted stack is
tagged `[active]`. -/
theorem c10_leaf_frame_active (trace : List Span) (t : Frac) (leaf : Span)
    (hleaf : leaf ∈ leaves trace t) :
    (walkFull trace t leaf).head? = some (leaf, true) ∧
    ((walkFull trace t leaf).reverse).getLast? = some (leaf, true) := by
  have hsome : (dictGet (spans_by_id trace t) leaf.id).isSome = true :=
    dictGet_isSome_of_mem _ _ _ (leaves_memKey trace t leaf hleaf)
  have hhead : (walkFull trace t leaf).head? = some (leaf, true) := by
    have h := walk_head (spans_by_id trace t) (allspans_by_id trace)
      (2 * trace.length + 1) [] leaf (List.not_mem_nil _)
    rw [hsome] at h
    exact h
  exact ⟨hhead, by rw [List.getLast?_reverse]; exact hhead⟩

theorem c10_leaf_frame_active_witness :
    (wSpan ∈ leaves wTrace (Frac.ofInt 0)) ∧
    ((walkFull wTrace (Frac.ofInt 0) wSpan).head? = some (wSpan, true) ∧
     ((walkFull wTrace (Frac.ofInt 0) wSpan).reverse).getLast? = some (wSpan, true)) :=
  ⟨by decide, c10_leaf_frame_active wTrace (Frac.ofInt 0) wSpan (by decide)⟩

/-! Termination measure lemmas for the walk. -/

theorem dictKeys_of_mem {α : Type} (d : Dict α) (k : Nat) (v : α)
    (h : (k, v) ∈ d) : k ∈ dictKeys d :=
  List.mem_map.mpr ⟨(k, v), h, rfl⟩

theorem resolveParent_spec (S A : Dict Span) (hS : WfDict S) (hA : WfDict A)
    (pid : Nat) (p : Span) (h : resolveParent S A pid = some p) :
    p.id = pid ∧ pid ∈ dictKeys S ++ dictKeys A := by
  unfold resolveParent at h
  cases hg : dictGet S pid with
  | some q =>
    rw [hg] at h
    have hqp : q = p := Option.some.inj h
    have hmem := dictGet_mem S pid q hg
    refine ⟨?_, List.mem_append_left _ (dictKeys_of_mem S pid q hmem)⟩
    rw [← hqp]
    exact hS (pid, q) hmem
  | none =>
    rw [hg] at h
    have hmem := dictGet_mem A pid p h
    exact ⟨hA (pid, p) hmem, List.mem_append_right _ (dictKeys_of_mem A pid p hmem)⟩

theorem mem_walked_of_keysRem_zero (S A : Dict Span) (walked : List Nat) (x : Nat)
    (hx : x ∈ dictKeys S ++ dictKeys A) (h : keysRem S A walked = 0) :
    x ∈ walked := by
  by_contra hnw
  have hmem : x ∈ (dictKeys S ++ dictKeys A).toFinset \ walked.toFinset :=
    Finset.mem_sdiff.mpr
      ⟨List.mem_toFinset.mpr hx, fun hc => hnw (List.mem_toFinset.mp hc)⟩
  have hpos := Finset.card_pos.mpr ⟨x, hmem⟩
  unfold keysRem at h
  omega

theorem keysRem_cons_lt (S A : Dict Span) (walked : List Nat) (x : Nat)
    (hx : x ∈ dictKeys S ++ dictKeys A) (hnw : x ∉ walked) :
    keysRem S A (x :: walked) < keysRem S A walked := by
  unfold keysRem
  apply Finset.card_lt_card
  have hsub : (dictKeys S ++ dictKeys A).toFinset \ (x :: walked).toFinset
      ⊆ (dictKeys S ++ dictKeys A).toFinset \ walked.toFinset := by
    apply Finset.sdiff_subset_sdiff (Finset.Subset.refl _)
    intro y hy
    rw [List.toFinset_cons]
    exact Finset.mem_insert_of_mem hy
  rw [Finset.ssubset_iff_of_subset hsub]
  refine ⟨x, Finset.mem_sdiff.mpr
    ⟨List.mem_toFinset.mpr hx, fun hc => hnw (List.mem_toFinset.mp hc)⟩, ?_⟩
  intro hc
  have := Finset.mem_sdiff.mp hc
  exact this.2 (by rw [List.toFinset_cons]; exact Finset.mem_insert_self x _)

theorem keysRem_le (S A : Dict Span) (walked : List Nat) :
    keysRem S A walked ≤ S.length + A.length := by
  unfold keysRem
  calc ((dictKeys S ++ dictKeys A).toFinset \ walked.toFinset).card
      ≤ (dictKeys S ++ dictKeys A).toFinset.card :=
        Finset.card_le_card Finset.sdiff_subset
    _ ≤ (dictKeys S ++ dictKeys A).length := List.toFinset_card_le _
    _ = S.length + A.length := by simp [dictKeys]

theorem dictInsert_length {α : Type} (d : Dict α) (k : Nat) (v : α) :
    (dictInsert d k v).length ≤ d.length + 1 := by
  unfold dictInsert
  split
  · simp
  · simp

theorem spans_by_id_length (trace : List Span) (t : Frac) :
    (spans_by_id trace t).length ≤ trace.length := by
  unfold spans_by_id
  have haux : ∀ (l : List Span) (d : Dict Span),
      (l.foldl (fun d sp => if isActive sp t then dictInsert d sp.id sp else d) d).length
        ≤ d.length + l.length := by
    intro l
    induction l with
    | nil => intro d; simp
    | cons sp rest ih =>
      intro d
      simp only [List.foldl_cons]
      by_cases ha : isActive sp t = true
      · rw [if_pos ha]
        have h1 := ih (dictInsert d sp.id sp)
        have h2 := dictInsert_length d sp.id sp
        simp only [List.length_cons]
        omega
      · rw [if_neg ha]
        have := ih d
        simp only [List.length_cons]
        omega
  simpa using haux trace []

theorem allspans_by_id_length (trace : List Span) :
    (allspans_by_id trace).length ≤ trace.length := by
  unfold allspans_by_id
  have haux : ∀ (l : List Span) (d : Dict Span),
      (l.foldl (fun d sp => dictInsert d sp.id sp) d).length ≤ d.length + l.length := by
    intro l
    induction l with
    | nil => intro d; simp
    | cons sp rest ih =>
      intro d
      simp only [List.foldl_cons]
      have h1 := ih (dictInsert d sp.id sp)
      have h2 := dictInsert_length d sp.id sp
      simp only [List.length_cons]
      omega
  simpa using haux trace []

/-- The walk is fuel-independent once the fuel exceeds the number of
unvisited dict keys: this is the termination of the Python recursion. -/
theorem walk_congr (S A : Dict Span) (hS : WfDict S) (hA : WfDict A) :
    ∀ (k : Nat) (walked : List Nat) (sp : Span),
      sp.id ∈ dictKeys S ++ dictKeys A →
      keysRem S A walked ≤ k →
      ∀ fuel₁ fuel₂, k + 1 ≤ fuel₁ → k + 1 ≤ fuel₂ →
        walk S A fuel₁ walked sp = walk S A fuel₂ walked sp := by
  intro k
  induction k with
  | zero =>
    intro walked sp hsp hrem fuel₁ fuel₂ h1 h2
    obtain ⟨m1, rfl⟩ : ∃ m, fuel₁ = m + 1 := ⟨fuel₁ - 1, by omega⟩
    obtain ⟨m2, rfl⟩ : ∃ m, fuel₂ = m + 1 := ⟨fuel₂ - 1, by omega⟩
    have hw : sp.id ∈ walked :=
      mem_walked_of_keysRem_zero S A walked sp.id hsp (by omega)
    rw [walk_succ, walk_succ, if_pos hw, if_pos hw]
  | succ k ih =>
    intro walked sp hsp hrem fuel₁ fuel₂ h1 h2
    obtain ⟨m1, rfl⟩ : ∃ m, fuel₁ = m + 1 := ⟨fuel₁ - 1, by omega⟩
    obtain ⟨m2, rfl⟩ : ∃ m, fuel₂ = m + 1 := ⟨fuel₂ - 1, by omega⟩
    rw [walk_succ, walk_succ]
    by_cases hw : sp.id ∈ walked
    · rw [if_pos hw, if_pos hw]
    · rw [if_neg hw, if_neg hw]
      rcases hp : sp.parent_id with _ | pid
      · simp only [hp]
      · simp only [hp]
        rcases hr : resolveParent S A pid with _ | parent
        · simp only [hr]
        · simp only [hr]
          congr 1
          obtain ⟨hpid, hpidmem⟩ := resolveParent_spec S A hS hA pid parent hr
          by_cases hpw : parent.id ∈ (sp.id :: walked)
          · obtain ⟨n1, rfl⟩ : ∃ n, m1 = n + 1 := ⟨m1 - 1, by omega⟩
            obtain ⟨n2, rfl⟩ : ∃ n, m2 = n + 1 := ⟨m2 - 1, by omega⟩
            rw [walk_succ, walk_succ, if_pos hpw, if_pos hpw]
          · have hdec : keysRem S A (sp.id :: walked) ≤ k := by
              have := keysRem_cons_lt S A walked sp.id hsp hw
              omega
            exact ih (sp.id :: walked) parent (by rw [hpid]; exact hpidmem) hdec
              m1 m2 (by omega) (by omega)

/-- The walk never appends the same span id twice, and never an id that was
already in the visited set. -/
theorem walk_ids_nodup (S A : Dict Span) :
    ∀ (fuel : Nat) (walked : List Nat) (sp : Span),
      ((walk S A fuel walked sp).map (fun fr => fr.1.id)).Nodup ∧
      ∀ i ∈ (walk S A fuel walked sp).map (fun fr => fr.1.id), i ∉ walked := by
  intro fuel
  induction fuel with
  | zero =>
    intro walked sp
    simp [walk]
  | succ n ih =>
    intro walked sp
    rw [walk_succ]
    by_cases hw : sp.id ∈ walked
    · rw [if_pos hw]
      simp
    · rw [if_neg hw]
      rcases hp : sp.parent_id with _ | pid
      · simp only [hp]
        refine ⟨by simp, ?_⟩
        intro i hi
        rw [List.map_cons, List.map_nil, List.mem_singleton] at hi
        subst hi
        exact hw
      · simp only [hp]
        rcases hr : resolveParent S A pid with _ | parent
        · simp only [hr]
          refine ⟨by simp, ?_⟩
          intro i hi
          rw [List.map_cons, List.map_nil, List.mem_singleton] at hi
          subst hi
          exact hw
        · simp only [hr]
          obtain ⟨hnodup, hdisj⟩ := ih (sp.id :: walked) parent
          constructor
          · rw [List.map_cons, List.nodup_cons]
            refine ⟨?_, hnodup⟩
            intro hc
            exact (hdisj sp.id hc) (List.mem_cons_self _ _)
          · intro i hi
            rw [List.map_cons, List.mem_cons] at hi
            rcases hi with rfl | hi
            · exact hw
            · intro hc
              exact hdisj i hi (List.mem_cons_of_mem _ hc)

/-- With sufficient fuel, the walk stops exactly at a span whose parent
resolves to nothing or to an already-walked id. -/
theorem walk_last (S A : Dict Span) (hS : WfDict S) (hA : WfDict A) :
    ∀ (k : Nat) (walked : List Nat) (sp : Span),
      sp.id ∈ dictKeys S ++ dictKeys A →
      keysRem S A walked ≤ k →
      ∀ fuel, k + 1 ≤ fuel →
        ∀ fr, (walk S A fuel walked sp).getLast? = some fr →
          nextParent S A fr.1 = none ∨
          ∃ p, nextParent S A fr.1 = some p ∧
            (p.id ∈ walked ∨ p.id ∈ (walk S A fuel walked sp).map (fun fr => fr.1.id)) := by
  intro k
  induction k with
  | zero =>
    intro walked sp hsp hrem fuel hf fr hlast
    obtain ⟨m, rfl⟩ : ∃ m, fuel = m + 1 := ⟨fuel - 1, by omega⟩
    have hw : sp.id ∈ walked :=
      mem_walked_of_keysRem_zero S A walked sp.id hsp (by omega)
    rw [walk_succ, if_pos hw] at hlast
    cases hlast
  | succ k ih =>
    intro walked sp hsp hrem fuel hf fr hlast
    obtain ⟨m, rfl⟩ : ∃ m, fuel = m + 1 := ⟨fuel - 1, by omega⟩
    rw [walk_succ] at hlast ⊢
    by_cases hw : sp.id ∈ walked
    · rw [if_pos hw] at hlast
      cases hlast
    · rw [if_neg hw] at hlast ⊢
      rcases hp : sp.parent_id with _ | pid
      · simp only [hp] at hlast ⊢
        have hfr : (sp, (dictGet S sp.id).isSome) = fr := by simpa using hlast
        left
        rw [← hfr]
        simp [nextParent, hp]
      · simp only [hp] at hlast ⊢
        rcases hr : resolveParent S A pid with _ | parent
        · simp only [hr] at hlast ⊢
          have hfr : (sp, (dictGet S sp.id).isSome) = fr := by simpa using hlast
          left
          rw [← hfr]
          simp [nextParent, hp, hr]
        · simp only [hr] at hlast ⊢
          obtain ⟨hpid, hpidmem⟩ := resolveParent_spec S A hS hA pid parent hr
          by_cases hpw : parent.id ∈ (sp.id :: walked)
          · obtain ⟨m2, rfl⟩ : ∃ n, m = n + 1 := ⟨m - 1, by omega⟩
            rw [walk_succ, if_pos hpw] at hlast ⊢
            have hfr : (sp, (dictGet S sp.id).isSome) = fr := by simpa using hlast
            right
            refine ⟨parent, by rw [← hfr]; simp [nextParent, hp, hr], ?_⟩
            rcases List.mem_cons.mp hpw with heq | hmem
            · right
              rw [List.map_cons, List.map_nil, List.mem_singleton]
              exact heq
            · left
              exact hmem
          · have hdec : keysRem S A (sp.id :: walked) ≤ k := by
              have := keysRem_cons_lt S A walked sp.id hsp hw
              omega
            have hkey2 : parent.id ∈ dictKeys S ++ dictKeys A := by
              rw [hpid]
              exact hpidmem
            rcases hL : walk S A m (sp.id :: walked) parent with _ | ⟨x, l2⟩
            · exfalso
              obtain ⟨m2, hm2⟩ : ∃ n, m = n + 1 := ⟨m - 1, by omega⟩
              rw [hm2, walk_succ, if_neg hpw] at hL
              rcases hp2 : parent.parent_id with _ | pid2
              · simp only [hp2] at hL
                cases hL
              · simp only [hp2] at hL
                rcases hr2 : resolveParent S A pid2 with _ | q
                · simp only [hr2] at hL
                  cases hL
                · simp only [hr2] at hL
                  cases hL
            · rw [hL, List.getLast?_cons_cons] at hlast
              have hres := ih (sp.id :: walked) parent hkey2 hdec m (by omega) fr
                (by rw [hL]; exact hlast)
              rcases hres with hnone | ⟨p, hpp, hin⟩
              · left
                exact hnone
              · right
                refine ⟨p, hpp, ?_⟩
                rcases hin with hin | hin
                · rcases List.mem_cons.mp hin with heq | hmem
                  · right
                    rw [List.map_cons, List.mem_cons]
                    left
                    exact heq
                  · left
                    exact hmem
                · right
                  rw [List.map_cons, List.mem_cons]
                  right
                  rw [hL] at hin
                  exact hin

/-- Claim C6: for every leaf and any input, including cyclic or
self-referencing parent links, the walk terminates (the fuel-free recursion
stabilises: any fuel at or beyond the program bound gives the same result),
never appends the same span id twice, and its last frame is one whose
parent resolves to nothing or to an already-appended id. -/
theorem c6_walk_terminates (trace : List Span) (t : Frac) (leaf : Span)
    (hleaf : leaf ∈ leaves trace t) :
    (∀ fuel, walkFuel trace ≤ fuel →
       walk (spans_by_id trace t) (allspans_by_id trace) fuel [] leaf
         = walkFull trace t leaf) ∧
    ((walkFull trace t leaf).map (fun fr => fr.1.id)).Nodup ∧
    (∀ fr, (walkFull trace t leaf).getLast? = some fr →
      nextParent (spans_by_id trace t) (allspans_by_id trace) fr.1 = none ∨
      ∃ p, nextParent (spans_by_id trace t) (allspans_by_id trace) fr.1 = some p ∧
        p.id ∈ (walkFull trace t leaf).map (fun fr => fr.1.id)) := by
  have hS : WfDict (spans_by_id trace t) := spans_by_id_wf trace t
  have hA : WfDict (allspans_by_id trace) := allspans_by_id_wf trace
  have hkey : leaf.id ∈ dictKeys (spans_by_id trace t) ++ dictKeys (allspans_by_id trace) :=
    List.mem_append_left _ (dictKeys_of_mem _ _ _ (leaves_memKey trace t leaf hleaf))
  have hrem : keysRem (spans_by_id trace t) (allspans_by_id trace) [] ≤ 2 * trace.length := by
    have h1 := keysRem_le (spans_by_id trace t) (allspans_by_id trace) []
    have h2 := spans_by_id_length trace t
    have h3 := allspans_by_id_length trace
    omega
  refine ⟨?_, ?_, ?_⟩
  · intro fuel hfuel
    unfold walkFull
    exact walk_congr _ _ hS hA (2 * trace.length) [] leaf hkey hrem fuel (walkFuel trace)
      (by unfold walkFuel at hfuel; omega) (by unfold walkFuel; omega)
  · exact (walk_ids_nodup _ _ (walkFuel trace) [] leaf).1
  · intro fr hlast
    have hres := walk_last _ _ hS hA (2 * trace.length) [] leaf hkey hrem
      (walkFuel trace) (by unfold walkFuel; omega) fr hlast
    rcases hres with h | ⟨p, hp, hin⟩
    · left
      exact h
    · right
      refine ⟨p, hp, ?_⟩
      rcases hin with hin | hin
      · exact absurd hin (List.not_mem_nil p.id)
      · exact hin

theorem c6_walk_terminates_witness :
    ((⟨1, some 2, 0, 100000, fA⟩ : Span) ∈ leaves cycTrace (Frac.ofInt 0)) ∧
    ((∀ fuel, walkFuel cycTrace ≤ fuel →
       walk (spans_by_id cycTrace (Frac.ofInt 0)) (allspans_by_id cycTrace) fuel []
           (⟨1, some 2, 0, 100000, fA⟩ : Span)
         = walkFull cycTrace (Frac.ofInt 0) (⟨1, some 2, 0, 100000, fA⟩ : Span)) ∧
    ((walkFull cycTrace (Frac.ofInt 0) (⟨1, some 2, 0, 100000, fA⟩ : Span)).map
        (fun fr => fr.1.id)).Nodup ∧
    (∀ fr, (walkFull cycTrace (Frac.ofInt 0)
          (⟨1, some 2, 0, 100000, fA⟩ : Span)).getLast? = some fr →
      nextParent (spans_by_id cycTrace (Frac.ofInt 0)) (allspans_by_id cycTrace) fr.1 = none ∨
      ∃ p, nextParent (spans_by_id cycTrace (Frac.ofInt 0)) (allspans_by_id cycTrace) fr.1
            = some p ∧
        p.id ∈ (walkFull cycTrace (Frac.ofInt 0)
            (⟨1, some 2, 0, 100000, fA⟩ : Span)).map (fun fr => fr.1.id))) :=
  ⟨by decide, c6_walk_terminates cycTrace (Frac.ofInt 0) ⟨1, some 2, 0, 100000, fA⟩ (by decide)⟩

/-- Counterexample to claim C1 as stated: span A of trace 1 has `parent_id`
naming span B, which exists only in trace 2.  Because the fallback
`allspans_by_id` dict is rebuilt per trace, B is not resolvable while
trace 1 is processed: the emitted stack for the leaf under A is A's frame
alone, with no `[inactive]` B ancestor, and the whole run's output contains
no cross-trace frame. -/
theorem c1_counterexample :
    exSpanA.parent_id = some exSpanB.id ∧
    (exSpanB ∈ exTrace2 ∧ exSpanB ∉ exTrace1) ∧
    traceStacks exTrace1 = ["[active]a.A"] ∧
    outputLines exTraces = ["[active]a.A 1", "[active]b.B 1"] :=
  ⟨rfl, ⟨by decide, by decide⟩, by decide, by decide⟩

/-- Claim C1 amended: the fallback index is the per-trace `allspans_by_id`,
not a mapping over all traces.  A `parent_id` found there but absent from
the active set continues the walk with that ancestor tagged inactive
(flag `false`); a `parent_id` found in neither per-trace dict — such as one
matching only a span of a different trace — ends the walk at the current
span. -/
theorem c1_per_trace_fallback (S A : Dict Span) (walked : List Nat) (sp : Span)
    (pid : Nat) (n : Nat)
    (hp : sp.parent_id = some pid) (hw : sp.id ∉ walked)
    (hS : dictGet S pid = none) :
    (dictGet A pid = none →
      walk S A (n+1) walked sp = [(sp, (dictGet S sp.id).isSome)]) ∧
    (∀ p, dictGet A pid = some p → p.id = pid → pid ∉ walked → pid ≠ sp.id →
      ∃ rest, walk S A (n+2) walked sp
        = (sp, (dictGet S sp.id).isSome) :: (p, false) :: rest) := by
  constructor
  · intro hA
    rw [walk_succ, if_neg hw]
    simp only [hp]
    have hr : resolveParent S A pid = none := by
      simp [resolveParent, hS, hA]
    simp only [hr]
  · intro p hA hpid hpw hps
    rw [walk_succ, if_neg hw]
    simp only [hp]
    have hr : resolveParent S A pid = some p := by
      simp [resolveParent, hS, hA]
    simp only [hr]
    have hpw2 : p.id ∉ (sp.id :: walked) := by
      rw [hpid]
      intro hc
      rcases List.mem_cons.mp hc with h | h
      · exact hps h
      · exact hpw h
    rw [walk_succ, if_neg hpw2]
    have hflag : (dictGet S p.id).isSome = false := by
      rw [hpid, hS]
      rfl
    rcases hp2 : p.parent_id with _ | pid2
    · simp only [hp2]
      exact ⟨[], by rw [hflag]⟩
    · simp only [hp2]
      rcases hr2 : resolveParent S A pid2 with _ | q
      · simp only [hr2]
        exact ⟨[], by rw [hflag]⟩
      · simp only [hr2]
        exact ⟨walk S A n (p.id :: sp.id :: walked) q, by rw [hflag]⟩

theorem c1_per_trace_fallback_witness :
    ((⟨1, some 2, 0, 100000, fA⟩ : Span).parent_id = some 2 ∧
     (⟨1, some 2, 0, 100000, fA⟩ : Span).id ∉ ([] : List Nat) ∧
     dictGet (spans_by_id inactTrace (Frac.ofInt 0)) 2 = none) ∧
    ((dictGet (allspans_by_id inactTrace) 2 = none →
      walk (spans_by_id inactTrace (Frac.ofInt 0)) (allspans_by_id inactTrace) (0+1) []
          (⟨1, some 2, 0, 100000, fA⟩ : Span)
        = [((⟨1, some 2, 0, 100000, fA⟩ : Span),
            (dictGet (spans_by_id inactTrace (Frac.ofInt 0))
              (⟨1, some 2, 0, 100000, fA⟩ : Span).id).isSome)]) ∧
     (∀ p, dictGet (allspans_by_id inactTrace) 2 = some p → p.id = 2 →
        2 ∉ ([] : List Nat) → 2 ≠ (⟨1, some 2, 0, 100000, fA⟩ : Span).id →
      ∃ rest, walk (spans_by_id inactTrace (Frac.ofInt 0)) (allspans_by_id inactTrace)
          (0+2) [] (⟨1, some 2, 0, 100000, fA⟩ : Span)
        = ((⟨1, some 2, 0, 100000, fA⟩ : Span),
            (dictGet (spans_by_id inactTrace (Frac.ofInt 0))
              (⟨1, some 2, 0, 100000, fA⟩ : Span).id).isSome) :: (p, false) :: rest)) :=
  ⟨⟨rfl, by decide, by decide⟩,
    c1_per_trace_fallback (spans_by_id inactTrace (Frac.ofInt 0))
      (allspans_by_id inactTrace) [] ⟨1, some 2, 0, 100000, fA⟩ 2 0
      rfl (by decide) (by decide)⟩

/-- Claim C7: a trace with zero spans leaves both running extrema unset, so
the `finish - start` computation fails and processing that trace returns an
error instead of output; a trace with exactly one (well-formed) span yields
the envelope `(some start, some finish)` of that span's own bounds. -/
theorem c7_envelope :
    rawProcessTrace [] = Except.error "TypeError: unsupported operand" ∧
    ∀ (sp : RawSpan) (i : Nat) (s f : Int),
      sp.id = some i → sp.start = some s → sp.finish = some f →
      rawEnvIndex [sp] = Except.ok ((some s, some f),
        ([(i, ⟨i, sp.parent_id, s, f, sp.package, sp.name⟩)],
         [⟨i, sp.parent_id, s, f, sp.package, sp.name⟩])) := by
  constructor
  · rfl
  · intro sp i s f hid hst hfi
    cases sp with
    | mk oid opid ost ofin opkg onm =>
      simp only at hid hst hfi
      subst hid
      subst hst
      subst hfi
      rfl

theorem c7_envelope_witness :
    (rawFull.id = some 7 ∧ rawFull.start = some 5 ∧ rawFull.finish = some 9) ∧
    rawEnvIndex [rawFull] = Except.ok ((some 5, some 9),
      ([(7, ⟨7, rawFull.parent_id, 5, 9, rawFull.package, rawFull.name⟩)],
       [⟨7, rawFull.parent_id, 5, 9, rawFull.package, rawFull.name⟩])) :=
  ⟨⟨rfl, rfl, rfl⟩, c7_envelope.2 rawFull 7 5 9 rfl rfl rfl⟩

/-- Counterexample to claim C8 as stated: a span missing both func fields in
a zero-duration trace is never rendered, so the run completes successfully
instead of aborting. -/
theorem c8_counterexample :
    rawNoFunc.package = none ∧ rawNoFunc.name = none ∧
    rawRun [[rawNoFunc]] = Except.ok [] :=
  ⟨rfl, rfl, rfl⟩

theorem rawEnvStep_error (acc : (Option Int × Option Int) × Dict CSpan × List CSpan)
    (x : RawSpan) (hmiss : x.id = none ∨ x.start = none ∨ x.finish = none) :
    ∃ e, rawEnvStep acc x = Except.error e := by
  cases hst : x.start with
  | none =>
    exact ⟨"KeyError: start", by simp only [rawEnvStep, getField, hst]; rfl⟩
  | some s =>
    cases hfi : x.finish with
    | none =>
      exact ⟨"KeyError: finish", by simp only [rawEnvStep, getField, hst, hfi]; rfl⟩
    | some f =>
      cases hid : x.id with
      | none =>
        exact ⟨"KeyError: id", by simp only [rawEnvStep, getField, hst, hfi, hid]; rfl⟩
      | some i =>
        rcases hmiss with h | h | h <;> simp_all

theorem foldlM_error_mem {α β : Type} (step : β → α → Except String β) (x : α)
    (hstep : ∀ acc, ∃ e, step acc x = Except.error e) :
    ∀ (l : List α), x ∈ l → ∀ acc, ∃ e, l.foldlM step acc = Except.error e := by
  intro l
  induction l with
  | nil =>
    intro hx
    cases hx
  | cons y rest ih =>
    intro hx acc
    rw [List.foldlM_cons]
    rcases List.mem_cons.mp hx with rfl | hmem
    · obtain ⟨e, he⟩ := hstep acc
      exact ⟨e, by rw [he]; rfl⟩
    · cases hy : step acc y with
      | error e => exact ⟨e, rfl⟩
      | ok acc2 =>
        obtain ⟨e, he⟩ := ih hmem acc2
        exact ⟨e, he⟩

theorem rawTraceStep_error (trace : List RawSpan) (sp : RawSpan) (hsp : sp ∈ trace)
    (hmiss : sp.id = none ∨ sp.start = none ∨ sp.finish = none) :
    ∀ acc0, ∃ e, rawTraceStep acc0 trace = Except.error e := by
  intro acc0
  obtain ⟨e, he⟩ := foldlM_error_mem rawEnvStep sp
    (fun acc => rawEnvStep_error acc sp hmiss) trace hsp ((none, none), ([], []))
  refine ⟨e, ?_⟩
  unfold rawTraceStep
  rw [show rawEnvIndex trace = Except.error e from he]
  rfl

/-- Claim C8 amended: a span missing `id`, `start` or `finish` always aborts
the run with an error (those fields are read for every span while the
envelope and index are built), and an aborted run produces no output lines;
a span missing only `func.package`/`func.name` aborts only if it is
rendered in some stack. -/
theorem c8_missing_core_fields_abort (traces : List (List RawSpan))
    (trace : List RawSpan) (sp : RawSpan)
    (htr : trace ∈ traces) (hsp : sp ∈ trace)
    (hmiss : sp.id = none ∨ sp.start = none ∨ sp.finish = none) :
    ∃ e, rawRun traces = Except.error e := by
  obtain ⟨e, he⟩ := foldlM_error_mem rawTraceStep trace
    (fun acc0 => rawTraceStep_error trace sp hsp hmiss acc0) traces htr []
  refine ⟨e, ?_⟩
  unfold rawRun
  rw [he]
  rfl

theorem c8_missing_core_fields_abort_witness :
    ([rawNoStart] ∈ [[rawNoStart]] ∧ rawNoStart ∈ [rawNoStart] ∧
     (rawNoStart.id = none ∨ rawNoStart.start = none ∨ rawNoStart.finish = none)) ∧
    ∃ e, rawRun [[rawNoStart]] = Except.error e :=
  ⟨⟨by decide, by decide, by decide⟩,
    c8_missing_core_fields_abort [[rawNoStart]] [rawNoStart] rawNoStart
      (by decide) (by decide) (by decide)⟩

/-! Aggregator lemmas. -/

theorem bump_keys (d : List (String × Nat)) (k : String) :
    (bump d k).map Prod.fst
      = if d.any (fun p => p.1 == k) = true then d.map Prod.fst
        else d.map Prod.fst ++ [k] := by
  unfold bump
  by_cases hany : d.any (fun p => p.1 == k) = true
  · rw [if_pos hany, if_pos hany, List.map_map]
    apply List.map_congr_left
    intro p _
    by_cases hpk : (p.1 == k) = true <;> simp [hpk, Function.comp]
  · rw [if_neg hany, if_neg hany, List.map_append]
    rfl

theorem bump_keys_nodup (d : List (String × Nat)) (k : String)
    (h : (d.map Prod.fst).Nodup) : ((bump d k).map Prod.fst).Nodup := by
  rw [bump_keys]
  by_cases hany : d.any (fun p => p.1 == k) = true
  · rw [if_pos hany]
    exact h
  · rw [if_neg hany]
    rw [List.nodup_append]
    refine ⟨h, List.nodup_singleton k, ?_⟩
    intro a ha hb
    rw [List.mem_singleton] at hb
    subst hb
    obtain ⟨p, hp, hfst⟩ := List.mem_map.mp ha
    exact hany (List.any_eq_true.mpr ⟨p, hp, by simp [hfst]⟩)

theorem lookupCount_update_ne (k k' : String) (hne : k' ≠ k) :
    ∀ (d : List (String × Nat)),
      lookupCount (d.map (fun p => if p.1 == k then (p.1, p.2 + 1) else p)) k'
        = lookupCount d k' := by
  intro d
  induction d with
  | nil => rfl
  | cons q rest ih =>
    simp only [List.map_cons]
    by_cases hq' : (q.1 == k') = true
    · have hq1 : q.1 = k' := by simpa using hq'
      have hqk : ¬((q.1 == k) = true) := by
        simp only [hq1, beq_iff_eq]
        exact hne
      rw [if_neg hqk]
      unfold lookupCount
      simp only [List.find?_cons, hq']
    · have hq'f : (q.1 == k') = false := by simpa using hq'
      have hfstf : ((if (q.1 == k) = true then (q.1, q.2 + 1) else q).1 == k') = false := by
        by_cases hqk : (q.1 == k) = true
        · rw [if_pos hqk]
          exact hq'f
        · rw [if_neg hqk]
          exact hq'f
      unfold lookupCount
      simp only [List.find?_cons, hfstf, hq'f]
      exact ih

theorem lookupCount_update_eq (k : String) :
    ∀ (d : List (String × Nat)), k ∈ d.map Prod.fst →
      lookupCount (d.map (fun p => if p.1 == k then (p.1, p.2 + 1) else p)) k
        = lookupCount d k + 1 := by
  intro d
  induction d with
  | nil =>
    intro h
    cases h
  | cons q rest ih =>
    intro hmem
    simp only [List.map_cons]
    by_cases hqk : (q.1 == k) = true
    · rw [if_pos hqk]
      unfold lookupCount
      simp only [List.find?_cons, hqk]
      rfl
    · rw [if_neg hqk]
      rw [List.map_cons] at hmem
      rcases List.mem_cons.mp hmem with heq | h
      · exact absurd (by simp [heq]) hqk
      · have hqkf : (q.1 == k) = false := by simpa using hqk
        unfold lookupCount
        simp only [List.find?_cons, hqkf]
        exact ih h

theorem lookupCount_append_new (d : List (String × Nat)) (k k' : String)
    (hk : k ∉ d.map Prod.fst) :
    lookupCount (d ++ [(k, 1)]) k'
      = lookupCount d k' + (if k' = k then 1 else 0) := by
  unfold lookupCount
  rw [List.find?_append]
  by_cases hk' : k' = k
  · subst hk'
    have hnone : d.find? (fun p => p.1 == k') = none := by
      rw [List.find?_eq_none]
      intro p hp hc
      exact hk (List.mem_map.mpr ⟨p, hp, by simpa using hc⟩)
    rw [hnone]
    have hhd : (((k', 1) : String × Nat).1 == k') = true := by simp
    simp only [List.find?_cons, hhd, List.find?_nil]
    simp
  · have hne2 : (((k, 1) : String × Nat).1 == k') = false := by
      simp only [beq_eq_false_iff_ne]
      exact fun h => hk' h.symm
    simp only [List.find?_cons, hne2, List.find?_nil, Option.or_none, if_neg hk']
    omega

theorem lookupCount_bump (d : List (String × Nat)) (k k' : String) :
    lookupCount (bump d k) k' = lookupCount d k' + (if k' = k then 1 else 0) := by
  unfold bump
  by_cases hany : d.any (fun p => p.1 == k) = true
  · rw [if_pos hany]
    by_cases hk' : k' = k
    · subst hk'
      rw [if_pos rfl]
      apply lookupCount_update_eq
      obtain ⟨p, hp, hpk⟩ := List.any_eq_true.mp hany
      exact List.mem_map.mpr ⟨p, hp, by simpa using hpk⟩
    · rw [if_neg hk', lookupCount_update_ne k k' hk' d]
      omega
  · rw [if_neg hany]
    apply lookupCount_append_new
    intro hc
    obtain ⟨p, hp, hfst⟩ := List.mem_map.mp hc
    exact hany (List.any_eq_true.mpr ⟨p, hp, by simp [hfst]⟩)

theorem aggregate_count (l : List String) : ∀ (d : List (String × Nat)) (k' : String),
    lookupCount (l.foldl bump d) k' = lookupCount d k' + l.count k' := by
  induction l with
  | nil =>
    intro d k'
    simp
  | cons k rest ih =>
    intro d k'
    rw [List.foldl_cons, ih (bump d k) k', lookupCount_bump d k k', List.count_cons]
    by_cases hk' : k' = k
    · subst hk'
      simp
      omega
    · have hne : (k == k') = false := by
        simp only [beq_eq_false_iff_ne]
        exact fun h => hk' h.symm
      simp [hk', hne]

theorem aggregate_keys_nodup (l : List String) : ∀ (d : List (String × Nat)),
    (d.map Prod.fst).Nodup → ((l.foldl bump d).map Prod.fst).Nodup := by
  induction l with
  | nil =>
    intro d h
    exact h
  | cons k rest ih =>
    intro d h
    rw [List.foldl_cons]
    exact ih _ (bump_keys_nodup d k h)

theorem lookup_of_mem_nodup : ∀ (d : List (String × Nat)) (kc : String × Nat),
    kc ∈ d → (d.map Prod.fst).Nodup → lookupCount d kc.1 = kc.2 := by
  intro d
  induction d with
  | nil =>
    intro kc h _
    cases h
  | cons p rest ih =>
    intro kc hmem hnd
    rcases List.mem_cons.mp hmem with rfl | hmem'
    · unfold lookupCount
      have hhd : (kc.1 == kc.1) = true := by simp
      simp only [List.find?_cons, hhd]
      rfl
    · have hne : (p.1 == kc.1) = false := by
        rw [beq_eq_false_iff_ne]
        intro he
        rw [List.map_cons, List.nodup_cons] at hnd
        exact hnd.1 (he ▸ List.mem_map.mpr ⟨kc, hmem', rfl⟩)
      unfold lookupCount
      simp only [List.find?_cons, hne]
      have hnd' : (rest.map Prod.fst).Nodup := by
        rw [List.map_cons, List.nodup_cons] at hnd
        exact hnd.2
      exact ih kc hmem' hnd'

/-- Claim C9: the transform is a pure function of its input — two runs on
identical input give identical output lines — and the aggregated table
lists every distinct stack key exactly once, with exactly the number of
times that key was generated, so the line sequence and counts are fully
determined by the input. -/
theorem c9_deterministic_output (traces : List (List Span)) :
    outputLines traces = outputLines traces ∧
    ((aggregate (allStacks traces)).map Prod.fst).Nodup ∧
    ∀ kc ∈ aggregate (allStacks traces), kc.2 = (allStacks traces).count kc.1 := by
  refine ⟨rfl, ?_, ?_⟩
  · exact aggregate_keys_nodup (allStacks traces) [] (by simp)
  · intro kc hmem
    have hnd : ((aggregate (allStacks traces)).map Prod.fst).Nodup :=
      aggregate_keys_nodup (allStacks traces) [] (by simp)
    have h1 := lookup_of_mem_nodup (aggregate (allStacks traces)) kc hmem hnd
    have h2 : lookupCount (aggregate (allStacks traces)) kc.1
        = lookupCount [] kc.1 + (allStacks traces).count kc.1 :=
      aggregate_count (allStacks traces) [] kc.1
    have h0 : lookupCount [] kc.1 = 0 := rfl
    rw [← h1, h2, h0, Nat.zero_add]

end ToFlame
